import Mathlib

/-!
Shallow embedding of the `ursa-mikail/erasure_coding` repository.

Bytes are modelled as `Nat` (Python byte values; `^^^` on bytes never leaves
`[0, 256)`), byte strings as `List Nat`.  The external dependencies of the
source — `hashlib.sha256` in `erasure_coding_file.py` and
`erasure_coding_demo.py`, and the `zfec` encoder/decoder used by
`erasure_coding_demo.py` — are not code of this repository; they are taken as
function parameters (`h`, `e`, `d`) of the embedded operations, exactly where
the source calls out to them.

Namespaces: `ECFile` embeds `SimpleErasureCode` of `erasure_coding_file.py`,
`ECSimple` embeds `SimpleErasureCode` of `erasure_coding_simple.py`, and
`ECDemo` embeds `ErasureCodingRecovery` of
`erasure_coding_demo/erasure_coding_demo.py`.
-/

/-- Bytewise XOR of two byte strings, as in the Python loops
`parity[idx] ^= chunks[j][idx]` (all operands in the source have equal
length `chunk_size`). -/
def xorBytes (a b : List Nat) : List Nat :=
  List.zipWith (· ^^^ ·) a b

/-- `chunk_size = (original_length + self.k - 1) // self.k` (ceiling
division), as computed by the `encode` methods of both `SimpleErasureCode`
classes. -/
def chunkSize (k L : Nat) : Nat := (L + k - 1) / k

/-- `bytes.rstrip(b'\x00')`: drop trailing zero bytes. -/
def rstripZeros (l : List Nat) : List Nat :=
  (l.reverse.dropWhile (fun x => decide (x = 0))).reverse

/-- Lookup in a Python dict built by iterated insertion
(`fragment_dict[idx] = fragments[i]`): the last insertion for a key wins.
The default `[]` is never reached on the inputs the source feeds it
(every key looked up was inserted). -/
def dictGet (ps : List (Nat × List Nat)) (i : Nat) : List Nat :=
  ps.foldl (fun acc p => if p.1 = i then p.2 else acc) []

/-- Boolean success test for `Except`. -/
def exceptIsOk {ε α : Type} : Except ε α → Bool
  | .ok _ => true
  | .error _ => false

deriving instance DecidableEq for Except

namespace ECFile

/-- The metadata dict built by `SimpleErasureCode.encode` in
`erasure_coding_file.py`.  `dataHash` stands for the opaque
`hashlib.sha256(data).hexdigest()` value. -/
structure Metadata where
  original_length : Nat
  chunk_size : Nat
  k : Nat
  m : Nat
  num_fragments : Nat
  dataHash : Nat
deriving DecidableEq, Repr

/-- The distinct `ValueError`s raised by `SimpleErasureCode.decode` in
`erasure_coding_file.py`, one constructor per raise site. -/
inductive DecodeError where
  /-- `Need at least {k} fragments, got {len(fragments)}`. -/
  | insufficientFragments (need got : Nat)
  /-- `Cannot reconstruct {len(missing)} missing data chunks with simple
  XOR parity`. -/
  | cannotReconstruct (missing : Nat)
  /-- `Missing data chunk but no parity available`. -/
  | noParity
deriving DecidableEq, Repr

/-- `padded_data = data + b'\x00' * (chunk_size * self.k - original_length)`
of `SimpleErasureCode.encode` in `erasure_coding_file.py`. -/
def paddedData (k : Nat) (data : List Nat) : List Nat :=
  data ++ List.replicate (chunkSize k data.length * k - data.length) 0

/-- The `k` data chunks `padded_data[i*chunk_size:(i+1)*chunk_size]`. -/
def chunksOf (k : Nat) (data : List Nat) : List (List Nat) :=
  (List.range k).map
    (fun i => ((paddedData k data).drop (i * chunkSize k data.length)).take
      (chunkSize k data.length))

/-- The XOR parity chunk: `parity[idx] ^= chunks[j][idx]` over all `j`,
starting from a zero-filled `bytearray(chunk_size)`. -/
def parityOf (k : Nat) (data : List Nat) : List Nat :=
  (chunksOf k data).foldl xorBytes (List.replicate (chunkSize k data.length) 0)

/-- `SimpleErasureCode.encode` of `erasure_coding_file.py`, parameterized by
the external digest `h` (`hashlib.sha256(...).hexdigest()`).  Returns
`chunks + parity_chunks` (the loop over `range(self.m)` appends the same XOR
parity every iteration) and the metadata dict. -/
def encode (h : List Nat → Nat) (k m : Nat) (data : List Nat) :
    List (List Nat) × Metadata :=
  (chunksOf k data ++ (List.range m).map (fun _ => parityOf k data),
   { original_length := data.length
     chunk_size := chunkSize k data.length
     k := k
     m := m
     num_fragments := k + m
     dataHash := h data })

/-- `data_indices = [idx for idx in fragment_indices if idx < k]` of
`SimpleErasureCode.decode` in `erasure_coding_file.py`. -/
def dataIdxOf (k : Nat) (fragment_indices : List Nat) : List Nat :=
  fragment_indices.filter (fun i => decide (i < k))

/-- `parity_indices = [idx for idx in fragment_indices if idx >= k]`. -/
def parIdxOf (k : Nat) (fragment_indices : List Nat) : List Nat :=
  fragment_indices.filter (fun i => decide (k ≤ i))

/-- `missing_data_indices = [i for i in range(k) if reconstructed_chunks[i]
is None]`; a slot `i` is filled exactly when `i` occurs in `data_indices`. -/
def missingOf (k : Nat) (fragment_indices : List Nat) : List Nat :=
  (List.range k).filter (fun i => !((dataIdxOf k fragment_indices).contains i))

/-- The XOR reconstruction of the one missing data chunk: start from the
first `chunk_size` bytes of the first available parity fragment and XOR
every available data fragment into it. -/
def xorRecover (chunk_size : Nat) (dict : List (Nat × List Nat))
    (dataIdx : List Nat) (parity_idx : Nat) : List Nat :=
  dataIdx.foldl (fun acc i => xorBytes acc (dictGet dict i))
    ((dictGet dict parity_idx).take chunk_size)

/-- `SimpleErasureCode.decode` of `erasure_coding_file.py`.  The branch with
one missing data chunk copies the first available parity fragment and XORs
every available data fragment into it (`xorRecover`); the final result is
the joined chunks truncated to `original_length`. -/
def decode (fragments : List (List Nat)) (fragment_indices : List Nat)
    (meta : Metadata) : Except DecodeError (List Nat) :=
  if fragments.length < meta.k then
    .error (.insufficientFragments meta.k fragments.length)
  else
    let dict := fragment_indices.zip fragments
    let missing := missingOf meta.k fragment_indices
    if missing.length = 0 then
      .ok (((List.range meta.k).map (fun i => dictGet dict i)).flatten.take
        meta.original_length)
    else if missing.length = 1 ∧ parIdxOf meta.k fragment_indices ≠ [] then
      let result := xorRecover meta.chunk_size dict
        (dataIdxOf meta.k fragment_indices)
        ((parIdxOf meta.k fragment_indices).headD 0)
      .ok (((List.range meta.k).map
        (fun i => if i = missing.headD 0 then result
          else dictGet dict i)).flatten.take meta.original_length)
    else if 1 < missing.length then
      .error (.cannotReconstruct missing.length)
    else
      .error .noParity

end ECFile

namespace ECSimple

/-- One data chunk of `SimpleErasureCode.encode` in
`erasure_coding_simple.py`: `data[start:end]` (with `end` clipped to
`len(data)`) padded with zero bytes up to `chunk_size`. -/
def chunkAt (data : List Nat) (chunk_size i : Nat) : List Nat :=
  let chunk := (data.drop (i * chunk_size)).take chunk_size
  chunk ++ List.replicate (chunk_size - chunk.length) 0

/-- The `k` data chunks of `SimpleErasureCode.encode` in
`erasure_coding_simple.py`. -/
def chunksOf (k : Nat) (data : List Nat) : List (List Nat) :=
  (List.range k).map (chunkAt data (chunkSize k data.length))

/-- The XOR parity chunk of `erasure_coding_simple.py` (same loop as in
`erasure_coding_file.py`). -/
def parityOf (k : Nat) (data : List Nat) : List Nat :=
  (chunksOf k data).foldl xorBytes
    (List.replicate (chunkSize k data.length) 0)

/-- `SimpleErasureCode.encode` of `erasure_coding_simple.py`: `k` padded data
chunks followed by `m` identical XOR parity chunks. -/
def encode (k m : Nat) (data : List Nat) : List (List Nat) :=
  chunksOf k data ++ (List.range m).map (fun _ => parityOf k data)

/-- Insertion step for the Python `available_data_fragments.sort()`; the
source sorts `(idx, frag)` tuples whose indices are what matters (tuple order
on distinct first components is order on the first components). -/
def insertByIdx (p : Nat × List Nat) :
    List (Nat × List Nat) → List (Nat × List Nat)
  | [] => [p]
  | q :: rest => if p.1 ≤ q.1 then p :: q :: rest else q :: insertByIdx p rest

/-- Sort `(idx, frag)` pairs by index. -/
def sortByIdx : List (Nat × List Nat) → List (Nat × List Nat)
  | [] => []
  | p :: rest => insertByIdx p (sortByIdx rest)

/-- `SimpleErasureCode.decode` of `erasure_coding_simple.py`: keep only the
data fragments (`idx < k`), sort them by index, concatenate, and strip
trailing zero bytes.  Parity fragments and indices `≥ k` are ignored; no
metadata is consulted. -/
def decode (k : Nat) (fragments : List (List Nat))
    (fragment_indices : List Nat) : List Nat :=
  let available := (fragments.zip fragment_indices).filterMap
    (fun p => if p.2 < k then some (p.2, p.1) else none)
  let sorted := sortByIdx available
  rstripZeros (sorted.map Prod.snd).flatten

end ECSimple

namespace ECDemo

/-- The metadata dict built by `ErasureCodingRecovery.encode`.  `hash` stands
for the opaque `hashlib.sha256(data).hexdigest()` value. -/
structure Metadata where
  original_length : Nat
  padding : Nat
  block_size : Nat
  hash : Nat
deriving DecidableEq, Repr

/-- The `ValueError`s raised by `ErasureCodingRecovery.decode`, one
constructor per raise site, plus the spec's `InvalidParameters` (§7). -/
inductive Error where
  /-- `Expected {n} shards, got {len(shards)}`. -/
  | wrongShardCount (expected got : Nat)
  /-- `Need at least {k} shards to recover, but only ... are valid`. -/
  | needAtLeast (k got : Nat)
  /-- `SHA-256 mismatch! Original: ..., Recovered: ...`. -/
  | shaMismatch (expected got : Nat)
  /-- Invalid `(k, n)` rejected at construction (spec §7). -/
  | invalidParameters
deriving DecidableEq, Repr

/-- `ErasureCodingRecovery.encode`, parameterized by the external zfec
encoder `e` (`self.encoder.encode(blocks)`) and the digest `h`. -/
def encode (e : List (List Nat) → List (List Nat)) (h : List Nat → Nat)
    (k : Nat) (data : List Nat) : List (List Nat) × Metadata :=
  let data_len := data.length
  let padding := (k - data_len % k) % k
  let padded := data ++ List.replicate padding 0
  let block_size := padded.length / k
  let blocks := (List.range k).map (fun i => (padded.drop (i * block_size)).take block_size)
  (e blocks,
   { original_length := data_len
     padding := padding
     block_size := block_size
     hash := h data })

/-- The loop `for i, shard in enumerate(shards): if shard is not None:
append` of `ErasureCodingRecovery.decode`, collecting `(index, shard)` pairs
of the non-`None` entries in enumeration order, starting at position `i`. -/
def validPairs : Nat → List (Option (List Nat)) → List (Nat × List Nat)
  | _, [] => []
  | i, none :: rest => validPairs (i + 1) rest
  | i, some b :: rest => (i, b) :: validPairs (i + 1) rest

/-- The tail of `ErasureCodingRecovery.decode`: remove the padding
(`recovered_data[:-padding]` when `padding > 0`) and verify the SHA-256
digest against the metadata, failing with the mismatch error. -/
def finishDecode (h : List Nat → Nat) (meta : Metadata)
    (joined : List Nat) : Except Error (List Nat) :=
  let recovered :=
    if 0 < meta.padding then joined.take (joined.length - meta.padding)
    else joined
  if h recovered ≠ meta.hash then
    .error (.shaMismatch meta.hash (h recovered))
  else
    .ok recovered

/-- `ErasureCodingRecovery.decode`, parameterized by the external zfec
decoder `d` (`self.decoder.decode(valid_shards, valid_indices)`) and the
digest `h`.  `k` and `n` are the constructor fields `self.k`/`self.n`. -/
def decode (d : List (List Nat) → List Nat → List (List Nat))
    (h : List Nat → Nat) (k n : Nat) (shards : List (Option (List Nat)))
    (meta : Metadata) : Except Error (List Nat) :=
  if shards.length ≠ n then
    .error (.wrongShardCount n shards.length)
  else
    let valid := validPairs 0 shards
    if valid.length < k then
      .error (.needAtLeast k valid.length)
    else
      let chosen := if k < valid.length then valid.take k else valid
      finishDecode h meta (d (chosen.map Prod.snd) (chosen.map Prod.fst)).flatten

/-- Modelled from the spec: parameter validation is absent from the
repository source — `ErasureCodingRecovery.__init__` passes `(k, n)` straight
to the external `zfec.Encoder`/`zfec.Decoder` constructors, whose code is not
in the repository.  Spec §7: `InvalidParameters` — `k ≤ 0`, `n < k`, or
`n > 255` at encode time; rejected before any allocation. -/
def paramsInvalid (k n : Int) : Prop :=
  k ≤ 0 ∨ n < k ∨ 255 < n

instance (k n : Int) : Decidable (paramsInvalid k n) := by
  unfold paramsInvalid; infer_instance

/-- Modelled from the spec: encoding guarded by the §7 parameter check;
either the whole shard list and metadata are produced, or nothing is. -/
def encodeChecked (e : List (List Nat) → List (List Nat))
    (h : List Nat → Nat) (k n : Int) (data : List Nat) :
    Except Error (List (List Nat) × Metadata) :=
  if paramsInvalid k n then .error .invalidParameters
  else .ok (encode e h k.toNat data)

end ECDemo

/-! ### Generic byte-string and XOR lemmas -/

/-- Fold of byte XOR over a list, starting from `0`. -/
def listXor (l : List Nat) : Nat := l.foldl (· ^^^ ·) 0

theorem foldl_xor_eq (z : Nat) (l : List Nat) :
    l.foldl (· ^^^ ·) z = z ^^^ listXor l := by
  induction l generalizing z with
  | nil => simp [listXor]
  | cons a t ih =>
    simp only [List.foldl_cons, listXor, ih (z ^^^ a), ih (0 ^^^ a)]
    rw [Nat.zero_xor, Nat.xor_assoc]

theorem listXor_cons (a : Nat) (l : List Nat) :
    listXor (a :: l) = a ^^^ listXor l := by
  simp only [listXor, List.foldl_cons, Nat.zero_xor]
  exact foldl_xor_eq a l

theorem listXor_perm {l₁ l₂ : List Nat} (p : l₁.Perm l₂) :
    listXor l₁ = listXor l₂ := by
  induction p with
  | nil => rfl
  | cons a _ ih => simp [listXor_cons, ih]
  | swap a b l =>
    simp only [listXor_cons]
    rw [← Nat.xor_assoc, ← Nat.xor_assoc, Nat.xor_comm b a]
  | trans _ _ ih₁ ih₂ => exact ih₁.trans ih₂

theorem length_xorBytes (a b : List Nat) :
    (xorBytes a b).length = min a.length b.length := by
  simp [xorBytes]

theorem getD_xorBytes (a b : List Nat) (j : Nat)
    (hja : j < a.length) (hjb : j < b.length) :
    (xorBytes a b).getD j 0 = a.getD j 0 ^^^ b.getD j 0 := by
  have hj : j < (xorBytes a b).length := by
    rw [length_xorBytes]; omega
  rw [List.getD_eq_getElem _ _ hj, List.getD_eq_getElem _ _ hja,
    List.getD_eq_getElem _ _ hjb]
  exact List.getElem_zipWith (h := hj)

theorem length_foldl_xorBytes (c : Nat) :
    ∀ (l : List (List Nat)) (init : List Nat), init.length = c →
      (∀ x ∈ l, x.length = c) → (l.foldl xorBytes init).length = c
  | [], _, hi, _ => hi
  | b :: t, init, hi, hl => by
    simp only [List.foldl_cons]
    refine length_foldl_xorBytes c t (xorBytes init b) ?_ ?_
    · rw [length_xorBytes, hi, hl b (by simp)]; omega
    · exact fun x hx => hl x (by simp [hx])

theorem getD_foldl_xorBytes (c : Nat) :
    ∀ (l : List (List Nat)) (init : List Nat) (j : Nat), init.length = c →
      (∀ x ∈ l, x.length = c) → j < c →
      (l.foldl xorBytes init).getD j 0 =
        List.foldl (· ^^^ ·) (init.getD j 0) (l.map (fun b => b.getD j 0))
  | [], _, _, _, _, _ => rfl
  | b :: t, init, j, hi, hl, hj => by
    simp only [List.foldl_cons, List.map_cons]
    rw [getD_foldl_xorBytes c t (xorBytes init b) j ?_ ?_ hj,
      getD_xorBytes init b j (by omega) (by rw [hl b (by simp)]; omega)]
    · rw [length_xorBytes, hi, hl b (by simp)]; omega
    · exact fun x hx => hl x (by simp [hx])

theorem dictGet_zip_map (f : Nat → List Nat) (i : Nat) :
    ∀ (S : List Nat) (acc : List Nat),
      (S.zip (S.map f)).foldl (fun acc p => if p.1 = i then p.2 else acc) acc =
        if i ∈ S then f i else acc
  | [], _ => by simp
  | a :: S, acc => by
    simp only [List.map_cons, List.zip_cons_cons, List.foldl_cons]
    rw [dictGet_zip_map f i S]
    by_cases hS : i ∈ S
    · simp [hS]
    · by_cases ha : a = i
      · subst ha; simp [hS]
      · have hni : i ∉ a :: S := by
          simp only [List.mem_cons]
          exact fun h => h.elim (fun h' => ha h'.symm) hS
        rw [if_neg hS, if_neg ha, if_neg hni]

theorem dictGet_eq (f : Nat → List Nat) (S : List Nat) (i : Nat) (h : i ∈ S) :
    dictGet (S.zip (S.map f)) i = f i := by
  rw [dictGet, dictGet_zip_map, if_pos h]

/-! ### Chunking lemmas -/

theorem flatten_slices (cs : Nat) :
    ∀ (k : Nat) (l : List Nat), cs * k ≤ l.length →
      ((List.range k).map (fun i => (l.drop (i * cs)).take cs)).flatten =
        l.take (cs * k)
  | 0, l, _ => by simp
  | k + 1, l, h => by
    rw [List.range_succ_eq_map, List.map_cons, List.map_map, List.flatten_cons]
    have hrw : ((List.range k).map
        ((fun i => (l.drop (i * cs)).take cs) ∘ Nat.succ)) =
        (List.range k).map (fun i => ((l.drop cs).drop (i * cs)).take cs) := by
      refine List.map_congr_left (fun i _ => ?_)
      simp only [Function.comp]
      rw [List.drop_drop]
      congr 2
      rw [Nat.succ_mul]
      omega
    rw [hrw, flatten_slices cs k (l.drop cs)
      (by rw [List.length_drop]; rw [Nat.mul_succ] at h; omega)]
    simp only [Nat.zero_mul, List.drop_zero]
    rw [Nat.mul_succ, Nat.add_comm (cs * k) cs, List.take_add]

theorem length_chunk (l : List Nat) (cs i k : Nat) (hik : i < k)
    (hlen : l.length = cs * k) : ((l.drop (i * cs)).take cs).length = cs := by
  rw [List.length_take, List.length_drop, hlen]
  have h1 : i * cs + cs ≤ k * cs := by
    have := Nat.mul_le_mul_right cs (Nat.succ_le_of_lt hik)
    simpa [Nat.succ_mul] using this
  have h2 : cs * k = k * cs := Nat.mul_comm cs k
  omega

theorem ceil_div_bounds (L k : Nat) (hk : 1 ≤ k) :
    L ≤ ((L + k - 1) / k) * k ∧ ((L + k - 1) / k) * k < L + k := by
  have hmod := Nat.div_add_mod (L + k - 1) k
  have hlt : (L + k - 1) % k < k := Nat.mod_lt _ (by omega)
  have hc : ((L + k - 1) / k) * k = k * ((L + k - 1) / k) := Nat.mul_comm _ _
  have hle := Nat.div_mul_le_self (L + k - 1) k
  exact ⟨by omega, by omega⟩

theorem dropWhile_replicate_append (p : Nat → Bool) (a : Nat) (hp : p a = true) :
    ∀ (n : Nat) (l : List Nat),
      (List.replicate n a ++ l).dropWhile p = l.dropWhile p
  | 0, l => by simp
  | n + 1, l => by
    rw [List.replicate_succ, List.cons_append, List.dropWhile_cons_of_pos hp]
    exact dropWhile_replicate_append p a hp n l

theorem rstripZeros_append_zeros (D : List Nat) (n : Nat) :
    rstripZeros (D ++ List.replicate n 0) = rstripZeros D := by
  unfold rstripZeros
  rw [List.reverse_append, List.reverse_replicate,
    dropWhile_replicate_append _ 0 (by simp)]

/-! ### `validPairs` and shard masking for the demo decoder -/

/-- Keep only the first `c` non-`None` entries of a shard list, replacing the
rest by `None`; used to state that decoding with more than `k` presented
shards equals decoding from just the selected `k`. -/
def maskFirstValid : Nat → List (Option (List Nat)) → List (Option (List Nat))
  | _, [] => []
  | 0, _ :: rest => none :: maskFirstValid 0 rest
  | c + 1, none :: rest => none :: maskFirstValid (c + 1) rest
  | c + 1, some b :: rest => some b :: maskFirstValid c rest

theorem length_maskFirstValid :
    ∀ (c : Nat) (s : List (Option (List Nat))),
      (maskFirstValid c s).length = s.length
  | c, [] => by cases c <;> simp [maskFirstValid]
  | 0, _ :: rest => by
    simp [maskFirstValid, length_maskFirstValid 0 rest]
  | c + 1, none :: rest => by
    simp [maskFirstValid, length_maskFirstValid (c + 1) rest]
  | c + 1, some b :: rest => by
    simp [maskFirstValid, length_maskFirstValid c rest]

theorem validPairs_maskFirstValid :
    ∀ (c : Nat) (s : List (Option (List Nat))) (i : Nat),
      ECDemo.validPairs i (maskFirstValid c s) = (ECDemo.validPairs i s).take c
  | c, [], _ => by cases c <;> simp [maskFirstValid, ECDemo.validPairs]
  | 0, none :: rest, i => by
    simp [maskFirstValid, ECDemo.validPairs, validPairs_maskFirstValid 0 rest]
  | 0, some b :: rest, i => by
    simp [maskFirstValid, ECDemo.validPairs, validPairs_maskFirstValid 0 rest]
  | c + 1, none :: rest, i => by
    simp [maskFirstValid, ECDemo.validPairs,
      validPairs_maskFirstValid (c + 1) rest]
  | c + 1, some b :: rest, i => by
    simp [maskFirstValid, ECDemo.validPairs, validPairs_maskFirstValid c rest]

theorem validPairs_lower :
    ∀ (s : List (Option (List Nat))) (i : Nat) (p : Nat × List Nat),
      p ∈ ECDemo.validPairs i s → i ≤ p.1
  | [], _, _, h => by simp [ECDemo.validPairs] at h
  | none :: rest, i, p, h => by
    simp only [ECDemo.validPairs] at h
    have := validPairs_lower rest (i + 1) p h
    omega
  | some b :: rest, i, p, h => by
    simp only [ECDemo.validPairs, List.mem_cons] at h
    rcases h with h | h
    · simp [h]
    · have := validPairs_lower rest (i + 1) p h
      omega

theorem validPairs_ascending :
    ∀ (s : List (Option (List Nat))) (i : Nat),
      (ECDemo.validPairs i s).Pairwise (fun p q => p.1 < q.1)
  | [], _ => by simp [ECDemo.validPairs]
  | none :: rest, i => validPairs_ascending rest (i + 1)
  | some b :: rest, i => by
    simp only [ECDemo.validPairs]
    refine List.Pairwise.cons (fun q hq => ?_) (validPairs_ascending rest (i + 1))
    have := validPairs_lower rest (i + 1) q hq
    omega

theorem length_filter_add_not {α : Type} (p : α → Bool) :
    ∀ l : List α,
      (l.filter p).length + (l.filter (fun a => !(p a))).length = l.length
  | [] => rfl
  | a :: t => by
    by_cases hpa : p a <;>
      simp [List.filter_cons, hpa, ← length_filter_add_not p t] <;> omega

theorem foldl_congr_mem {α β : Type} :
    ∀ (l : List α) (f g : β → α → β) (b : β),
      (∀ b' a, a ∈ l → f b' a = g b' a) → l.foldl f b = l.foldl g b
  | [], _, _, _, _ => rfl
  | a :: t, f, g, b, hfg => by
    simp only [List.foldl_cons, hfg b a (by simp)]
    exact foldl_congr_mem t f g _ (fun b' x hx => hfg b' x (by simp [hx]))

/-! ### Structure of the `erasure_coding_file.py` encoder output -/

namespace ECFile

theorem length_paddedData (k : Nat) (D : List Nat) (hk : 1 ≤ k) :
    (paddedData k D).length = chunkSize k D.length * k := by
  have hb := ceil_div_bounds D.length k hk
  simp only [paddedData, chunkSize, List.length_append, List.length_replicate] at *
  omega

theorem length_chunksOf (k : Nat) (D : List Nat) :
    (chunksOf k D).length = k := by
  simp [chunksOf]

theorem getD_chunksOf (k : Nat) (D : List Nat) (i : Nat) (hik : i < k) :
    (chunksOf k D).getD i [] =
      ((paddedData k D).drop (i * chunkSize k D.length)).take
        (chunkSize k D.length) := by
  rw [List.getD_eq_getElem _ _ (by simpa [length_chunksOf] using hik)]
  simp [chunksOf]

theorem length_chunksOf_getD (k : Nat) (D : List Nat) (i : Nat)
    (hk : 1 ≤ k) (hik : i < k) :
    ((chunksOf k D).getD i []).length = chunkSize k D.length := by
  rw [getD_chunksOf k D i hik]
  exact length_chunk _ _ _ _ hik (length_paddedData k D hk)

theorem mem_chunksOf_length (k : Nat) (D : List Nat) (hk : 1 ≤ k) :
    ∀ x ∈ chunksOf k D, x.length = chunkSize k D.length := by
  intro x hx
  rw [chunksOf, List.mem_map] at hx
  obtain ⟨i, hi, rfl⟩ := hx
  exact length_chunk _ _ _ _ (List.mem_range.mp hi) (length_paddedData k D hk)

theorem flatten_chunksOf (k : Nat) (D : List Nat) (hk : 1 ≤ k) :
    (chunksOf k D).flatten = paddedData k D := by
  have hlen := length_paddedData k D hk
  rw [chunksOf, flatten_slices _ k _ (le_of_eq hlen.symm), ← hlen,
    List.take_length]

theorem paddedData_take (k : Nat) (D : List Nat) :
    (paddedData k D).take D.length = D :=
  List.take_left' rfl

theorem length_parityOf (k : Nat) (D : List Nat) (hk : 1 ≤ k) :
    (parityOf k D).length = chunkSize k D.length :=
  length_foldl_xorBytes _ _ _ (by simp) (mem_chunksOf_length k D hk)

theorem encode_frag_data (h : List Nat → Nat) (k m : Nat) (D : List Nat)
    (i : Nat) (hik : i < k) :
    (encode h k m D).1.getD i [] = (chunksOf k D).getD i [] := by
  rw [encode]
  exact List.getD_append _ _ _ _ (by simpa [length_chunksOf] using hik)

theorem encode_frag_parity (h : List Nat → Nat) (k m : Nat) (D : List Nat)
    (i : Nat) (hki : k ≤ i) (him : i < k + m) :
    (encode h k m D).1.getD i [] = parityOf k D := by
  rw [encode]
  simp only
  rw [List.getD_append_right _ _ _ _ (by simpa [length_chunksOf] using hki),
    length_chunksOf,
    List.getD_eq_getElem _ _ (by simpa [List.length_map, List.length_range] using by omega)]
  simp

end ECFile

/-! ### Success analysis of the `erasure_coding_file.py` decoder -/

namespace ECFile

theorem decode_all_data (frags : List (List Nat)) (idxs : List Nat)
    (h : List Nat → Nat) (k m : Nat) (D : List Nat) (hk : 1 ≤ k)
    (hlen : k ≤ frags.length)
    (hcover : ∀ i, i < k → i ∈ dataIdxOf k idxs)
    (hdict : ∀ i, i < k →
      dictGet (idxs.zip frags) i = (chunksOf k D).getD i []) :
    decode frags idxs (encode h k m D).2 = .ok D := by
  have hmiss : missingOf k idxs = [] := by
    rw [missingOf, List.filter_eq_nil_iff]
    intro i hi
    have him : i ∈ dataIdxOf k idxs := hcover i (List.mem_range.mp hi)
    simp [him]
  have hmap : (List.range k).map (fun i => dictGet (idxs.zip frags) i) =
      chunksOf k D := by
    rw [chunksOf]
    refine List.map_congr_left (fun i hi => ?_)
    rw [hdict i (List.mem_range.mp hi), getD_chunksOf k D i (List.mem_range.mp hi)]
  simp only [decode, encode]
  rw [if_neg (by omega), hmiss]
  simp only [List.length_nil, hmap]
  rw [flatten_chunksOf k D hk, paddedData_take]
  simp

end ECFile

theorem length_foldl_xorBytes_map (c : Nat) (g : Nat → List Nat) :
    ∀ (l : List Nat) (init : List Nat), init.length = c →
      (∀ x ∈ l, (g x).length = c) →
      (l.foldl (fun acc i => xorBytes acc (g i)) init).length = c
  | [], _, hi, _ => hi
  | a :: t, init, hi, hl => by
    simp only [List.foldl_cons]
    refine length_foldl_xorBytes_map c g t (xorBytes init (g a)) ?_ ?_
    · rw [length_xorBytes, hi, hl a (by simp)]; omega
    · exact fun x hx => hl x (by simp [hx])

theorem getD_foldl_xorBytes_map (c : Nat) (g : Nat → List Nat) :
    ∀ (l : List Nat) (init : List Nat) (j : Nat), init.length = c →
      (∀ x ∈ l, (g x).length = c) → j < c →
      (l.foldl (fun acc i => xorBytes acc (g i)) init).getD j 0 =
        List.foldl (· ^^^ ·) (init.getD j 0) (l.map (fun i => (g i).getD j 0))
  | [], _, _, _, _, _ => rfl
  | a :: t, init, j, hi, hl, hj => by
    simp only [List.foldl_cons, List.map_cons]
    rw [getD_foldl_xorBytes_map c g t (xorBytes init (g a)) j ?_ ?_ hj,
      getD_xorBytes init (g a) j (by omega) (by rw [hl a (by simp)]; omega)]
    · rw [length_xorBytes, hi, hl a (by simp)]; omega
    · exact fun x hx => hl x (by simp [hx])

namespace ECFile

theorem decode_one_missing (h : List Nat → Nat) (k m : Nat) (D : List Nat)
    (S : List Nat) (hk : 1 ≤ k) (hnd : S.Nodup) (hlen : S.length = k)
    (hrange : ∀ i ∈ S, i < k + m)
    (hdata : (dataIdxOf k S).length = k - 1) :
    decode (S.map (fun i => (encode h k m D).1.getD i [])) S
      (encode h k m D).2 = .ok D := by
  classical
  set f : Nat → List Nat := fun i => (encode h k m D).1.getD i [] with hfdef
  have hdict : ∀ i ∈ S, dictGet (S.zip (S.map f)) i = f i :=
    fun i hi => dictGet_eq f S i hi
  -- there is exactly one parity index p
  have hpart : (dataIdxOf k S).length + (parIdxOf k S).length = k := by
    have hq : parIdxOf k S = S.filter (fun i => !(decide (i < k))) := by
      rw [parIdxOf]
      refine List.filter_congr (fun i _ => ?_)
      rcases Nat.lt_or_ge i k with hik | hik
      · simp [hik, Nat.not_le.mpr hik]
      · simp [Nat.not_lt.mpr hik, hik]
    have hsum := length_filter_add_not (fun i => decide (i < k)) S
    rw [hlen] at hsum
    rw [hq, dataIdxOf]
    exact hsum
  have hparlen : (parIdxOf k S).length = 1 := by omega
  obtain ⟨p, hp⟩ := List.length_eq_one.mp hparlen
  have hpmem : p ∈ S ∧ k ≤ p := by
    have hmem : p ∈ parIdxOf k S := by rw [hp]; simp
    rw [parIdxOf, List.mem_filter] at hmem
    exact ⟨hmem.1, by simpa using hmem.2⟩
  -- data-index membership facts
  have hndd : (dataIdxOf k S).Nodup := hnd.filter _
  have hdmem : ∀ i, i ∈ dataIdxOf k S ↔ (i ∈ S ∧ i < k) := by
    intro i
    rw [dataIdxOf, List.mem_filter]
    simp
  -- there is exactly one missing data index mi
  have hcount : ((List.range k).filter
      (fun i => (dataIdxOf k S).contains i)).length =
      (dataIdxOf k S).length := by
    refine List.Perm.length_eq ?_
    refine (List.perm_ext_iff_of_nodup ((List.nodup_range k).filter _) hndd).mpr ?_
    intro a
    rw [List.mem_filter, List.mem_range]
    constructor
    · rintro ⟨_, hc⟩
      simpa using hc
    · intro ha
      exact ⟨((hdmem a).mp ha).2, by simpa using ha⟩
  have hmisslen : (missingOf k S).length = 1 := by
    have hsum := length_filter_add_not
      (fun i => (dataIdxOf k S).contains i) (List.range k)
    rw [List.length_range] at hsum
    rw [missingOf]
    omega
  obtain ⟨mi, hmi⟩ := List.length_eq_one.mp hmisslen
  have hmif : mi ∈ missingOf k S := by rw [hmi]; simp
  have hmik : mi < k := by
    rw [missingOf, List.mem_filter, List.mem_range] at hmif
    exact hmif.1
  have hmind : mi ∉ dataIdxOf k S := by
    have hmif' : mi ∈ missingOf k S := by rw [hmi]; simp
    rw [missingOf, List.mem_filter] at hmif'
    simpa using hmif'.2
  have hchar : ∀ i, i < k → i ≠ mi → i ∈ dataIdxOf k S := by
    intro i hik hne
    by_contra hni
    have hin : i ∈ missingOf k S := by
      rw [missingOf, List.mem_filter, List.mem_range]
      exact ⟨hik, by simpa using hni⟩
    rw [hmi] at hin
    exact hne (List.mem_singleton.mp hin)
  -- fragment values
  have hfrag_par : f p = parityOf k D := by
    simp only [hfdef]
    exact encode_frag_parity h k m D p hpmem.2 (hrange p hpmem.1)
  have hfrag_data : ∀ i ∈ dataIdxOf k S, f i = (chunksOf k D).getD i [] := by
    intro i hi
    simp only [hfdef]
    exact encode_frag_data h k m D i ((hdmem i).mp hi).2
  have hventry : ∀ i ∈ dataIdxOf k S,
      ((chunksOf k D).getD i []).length = chunkSize k D.length := by
    intro i hi
    exact length_chunksOf_getD k D i hk ((hdmem i).mp hi).2
  -- the XOR recovery reproduces the missing chunk
  have hxr : xorRecover (chunkSize k D.length) (S.zip (S.map f))
      (dataIdxOf k S) p = (chunksOf k D).getD mi [] := by
    rw [xorRecover, hdict p hpmem.1, hfrag_par]
    have hplen : (parityOf k D).length = chunkSize k D.length :=
      length_parityOf k D hk
    rw [← hplen, List.take_length]
    rw [foldl_congr_mem (dataIdxOf k S)
      (fun acc i => xorBytes acc (dictGet (S.zip (S.map f)) i))
      (fun acc i => xorBytes acc ((chunksOf k D).getD i []))
      (parityOf k D)
      (fun b' a ha => by
        show xorBytes b' (dictGet (S.zip (S.map f)) a) =
          xorBytes b' ((chunksOf k D).getD a [])
        rw [hdict a ((hdmem a).mp ha).1, hfrag_data a ha])]
    refine List.ext_getElem ?_ ?_
    · rw [length_foldl_xorBytes_map (chunkSize k D.length) _ _ _ hplen hventry,
        length_chunksOf_getD k D mi hk hmik]
    · intro j h1 h2
      have hjcs : j < chunkSize k D.length := by
        rwa [length_foldl_xorBytes_map (chunkSize k D.length) _ _ _ hplen
          hventry] at h1
      rw [← List.getD_eq_getElem _ 0 h1, ← List.getD_eq_getElem _ 0 h2]
      rw [getD_foldl_xorBytes_map (chunkSize k D.length) _ _ _ j hplen hventry
        hjcs]
      rw [foldl_xor_eq]
      have hpar_j : (parityOf k D).getD j 0 =
          listXor ((List.range k).map
            (fun i => ((chunksOf k D).getD i []).getD j 0)) := by
        rw [parityOf, getD_foldl_xorBytes (chunkSize k D.length) (chunksOf k D)
          _ j (by simp) (mem_chunksOf_length k D hk) hjcs]
        have hz : (List.replicate (chunkSize k D.length) (0 : Nat)).getD j 0 = 0 := by
          rw [List.getD_eq_getElem _ _ (by simpa using hjcs)]
          simp
        rw [hz]
        show listXor ((chunksOf k D).map (fun b => b.getD j 0)) = _
        refine congrArg listXor ?_
        conv_lhs => rw [chunksOf, List.map_map]
        refine List.map_congr_left (fun i hi => ?_)
        simp only [Function.comp]
        rw [getD_chunksOf k D i (List.mem_range.mp hi)]
      have hperm2 : (dataIdxOf k S).Perm ((List.range k).erase mi) := by
        refine (List.perm_ext_iff_of_nodup hndd
          ((List.nodup_range k).erase mi)).mpr ?_
        intro a
        rw [List.Nodup.mem_erase_iff (List.nodup_range k), List.mem_range]
        constructor
        · intro ha
          exact ⟨fun hem => hmind (hem ▸ ha), ((hdmem a).mp ha).2⟩
        · rintro ⟨hne, hak⟩
          exact hchar a hak hne
      have hperm1 : (List.range k).Perm (mi :: (List.range k).erase mi) :=
        List.perm_cons_erase (List.mem_range.mpr hmik)
      rw [hpar_j,
        listXor_perm (hperm1.map (fun i => ((chunksOf k D).getD i []).getD j 0)),
        listXor_perm (hperm2.map (fun i => ((chunksOf k D).getD i []).getD j 0)),
        List.map_cons, listXor_cons, Nat.xor_assoc, Nat.xor_self, Nat.xor_zero]
  -- select the single-missing branch of decode and conclude
  simp only [decode, encode]
  rw [if_neg (by simp [hlen])]
  rw [hmi, hp]
  simp only [List.length_singleton, List.headD_cons, hxr]
  rw [if_neg (by omega), if_pos (by simp)]
  have hmapfinal : (List.range k).map
      (fun i => if i = mi then (chunksOf k D).getD mi []
        else dictGet (S.zip (S.map f)) i) = chunksOf k D := by
    conv_rhs => rw [chunksOf]
    refine List.map_congr_left (fun i hi => ?_)
    by_cases hieq : i = mi
    · subst hieq
      rw [if_pos rfl, getD_chunksOf k D i hmik]
    · rw [if_neg hieq]
      have hidata : i ∈ dataIdxOf k S :=
        hchar i (List.mem_range.mp hi) hieq
      rw [hdict i ((hdmem i).mp hidata).1, hfrag_data i hidata,
        getD_chunksOf k D i (List.mem_range.mp hi)]
  rw [hmapfinal, flatten_chunksOf k D hk, paddedData_take]

end ECFile

namespace ECFile

theorem filter_contains_length (k : Nat) (idxs : List Nat)
    (hnd : (dataIdxOf k idxs).Nodup) :
    ((List.range k).filter (fun i => (dataIdxOf k idxs).contains i)).length =
      (dataIdxOf k idxs).length := by
  refine List.Perm.length_eq ?_
  refine (List.perm_ext_iff_of_nodup ((List.nodup_range k).filter _) hnd).mpr ?_
  intro a
  rw [List.mem_filter, List.mem_range]
  constructor
  · rintro ⟨_, hc⟩
    simpa using hc
  · intro ha
    have haf : a ∈ idxs ∧ a < k := by
      simpa [dataIdxOf, List.mem_filter] using ha
    exact ⟨haf.2, by simpa using ha⟩

theorem missingOf_length (k : Nat) (idxs : List Nat)
    (hnd : (dataIdxOf k idxs).Nodup) :
    (missingOf k idxs).length = k - (dataIdxOf k idxs).length := by
  have hsum := length_filter_add_not
    (fun i => (dataIdxOf k idxs).contains i) (List.range k)
  rw [List.length_range] at hsum
  have hc := filter_contains_length k idxs hnd
  rw [missingOf]
  omega

theorem decode_err_two_missing (frags : List (List Nat)) (idxs : List Nat)
    (meta : Metadata) (hlen : ¬ frags.length < meta.k)
    (hm : 2 ≤ (missingOf meta.k idxs).length) :
    decode frags idxs meta =
      .error (.cannotReconstruct (missingOf meta.k idxs).length) := by
  simp only [decode]
  rw [if_neg hlen, if_neg (by omega), if_neg (by rintro ⟨h1, _⟩; omega),
    if_pos (by omega)]

theorem decode_not_ok_of_few_distinct (frags : List (List Nat))
    (idxs : List Nat) (meta : Metadata)
    (hcard : idxs.toFinset.card < meta.k) :
    exceptIsOk (decode frags idxs meta) = false := by
  classical
  by_cases hflen : frags.length < meta.k
  · simp only [decode]
    rw [if_pos hflen]
    rfl
  · -- show neither success branch can be taken
    have hsub : (dataIdxOf meta.k idxs).toFinset ⊆ idxs.toFinset := by
      intro a ha
      rw [List.mem_toFinset] at ha ⊢
      exact (List.mem_filter.mp ha).1
    have hdata_lt : ∀ a ∈ (dataIdxOf meta.k idxs).toFinset, a < meta.k := by
      intro a ha
      rw [List.mem_toFinset] at ha
      simpa using (List.mem_filter.mp ha).2
    by_cases hm0 : (missingOf meta.k idxs).length = 0
    · -- impossible: every index below k would be presented
      exfalso
      have hcov : ∀ i, i < meta.k → i ∈ (dataIdxOf meta.k idxs).toFinset := by
        intro i hik
        have hnil : missingOf meta.k idxs = [] := List.length_eq_zero.mp hm0
        by_contra hni
        have : i ∈ missingOf meta.k idxs := by
          rw [missingOf, List.mem_filter, List.mem_range]
          refine ⟨hik, ?_⟩
          rw [List.mem_toFinset] at hni
          simpa using hni
        rw [hnil] at this
        exact (List.not_mem_nil i) this
      have hsubr : Finset.range meta.k ⊆ idxs.toFinset := by
        intro i hi
        exact hsub (hcov i (Finset.mem_range.mp hi))
      have := Finset.card_le_card hsubr
      rw [Finset.card_range] at this
      omega
    · by_cases hm1 : (missingOf meta.k idxs).length = 1 ∧
          parIdxOf meta.k idxs ≠ []
      · -- impossible: k-1 distinct data indices plus a parity index
        exfalso
        obtain ⟨hm1len, hpar⟩ := hm1
        obtain ⟨p, hpmem⟩ := List.exists_mem_of_ne_nil _ hpar
        have hppar : p ∈ idxs ∧ meta.k ≤ p := by
          simpa [parIdxOf, List.mem_filter] using hpmem
        have hpk : meta.k ≤ p := hppar.2
        have hpidx : p ∈ idxs.toFinset := List.mem_toFinset.mpr hppar.1
        -- the filtered range as a measure of distinct data indices
        set A := (List.range meta.k).filter
          (fun i => (dataIdxOf meta.k idxs).contains i) with hA
        have hAnodup : A.Nodup := (List.nodup_range meta.k).filter _
        have hAlen : A.length = meta.k - 1 := by
          have hsum := length_filter_add_not
            (fun i => (dataIdxOf meta.k idxs).contains i) (List.range meta.k)
          rw [List.length_range] at hsum
          have : (missingOf meta.k idxs).length =
              meta.k - A.length := by
            rw [missingOf, hA]
            omega
          omega
        have hAsub : A.toFinset ⊆ idxs.toFinset := by
          intro a ha
          rw [List.mem_toFinset, hA, List.mem_filter] at ha
          have : a ∈ dataIdxOf meta.k idxs := by simpa using ha.2
          rw [List.mem_toFinset]
          exact (List.mem_filter.mp this).1
        have hpA : p ∉ A.toFinset := by
          intro hin
          rw [List.mem_toFinset, hA, List.mem_filter, List.mem_range] at hin
          omega
        have hins : insert p A.toFinset ⊆ idxs.toFinset := by
          intro a ha
          rcases Finset.mem_insert.mp ha with rfl | ha
          · exact hpidx
          · exact hAsub ha
        have hcardins := Finset.card_le_card hins
        rw [Finset.card_insert_of_not_mem hpA,
          List.toFinset_card_of_nodup hAnodup, hAlen] at hcardins
        have hk1 : 1 ≤ meta.k := by
          rcases Nat.eq_zero_or_pos meta.k with h0 | h1
          · exfalso
            rw [missingOf, h0] at hm0
            simp at hm0
          · exact h1
        omega
      · simp only [decode]
        rw [if_neg hflen, if_neg hm0, if_neg hm1]
        by_cases h2 : 1 < (missingOf meta.k idxs).length
        · rw [if_pos h2]
          rfl
        · rw [if_neg h2]
          rfl

end ECFile

/-! ### Structure of the `erasure_coding_simple.py` encoder and decoder -/

namespace ECSimple

theorem chunkAt_succ (D : List Nat) (cs i : Nat) :
    chunkAt D cs (i + 1) = chunkAt (D.drop cs) cs i := by
  simp only [chunkAt, List.drop_drop]
  have harith : (i + 1) * cs = cs + i * cs := by
    rw [Nat.succ_mul, Nat.add_comm]
  rw [harith]

theorem flatten_chunkAt (cs : Nat) :
    ∀ (k : Nat) (D : List Nat), D.length ≤ cs * k →
      ((List.range k).map (chunkAt D cs)).flatten =
        D ++ List.replicate (cs * k - D.length) 0
  | 0, D, hle => by
    have : D = [] := List.eq_nil_of_length_eq_zero (by simpa using hle)
    simp [this]
  | k + 1, D, hle => by
    rw [List.range_succ_eq_map, List.map_cons, List.map_map,
      List.flatten_cons]
    have hrw : (List.range k).map (chunkAt D cs ∘ Nat.succ) =
        (List.range k).map (chunkAt (D.drop cs) cs) := by
      refine List.map_congr_left (fun i _ => ?_)
      simp only [Function.comp]
      exact chunkAt_succ D cs i
    have hmul : cs * (k + 1) = cs * k + cs := Nat.mul_succ cs k
    have hdlen : (D.drop cs).length = D.length - cs := List.length_drop cs D
    rw [hrw, flatten_chunkAt cs k (D.drop cs) (by omega)]
    rcases le_or_lt cs D.length with hcase | hcase
    · -- the first chunk is full, no padding there
      have htake : (D.take cs).length = cs := by
        rw [List.length_take]; omega
      have h0 : chunkAt D cs 0 = D.take cs := by
        simp only [chunkAt, Nat.zero_mul, List.drop_zero]
        rw [htake]
        simp
      rw [h0, hdlen, ← List.append_assoc]
      rw [show D.take cs ++ D.drop cs = D from List.take_append_drop cs D]
      congr 1
      congr 1
      omega
    · -- the data ends inside the first chunk
      have htake : D.take cs = D := List.take_of_length_le (by omega)
      have hdrop : D.drop cs = [] := List.drop_eq_nil_of_le (by omega)
      have h0 : chunkAt D cs 0 = D ++ List.replicate (cs - D.length) 0 := by
        simp only [chunkAt, Nat.zero_mul, List.drop_zero]
        rw [htake]
      rw [h0, hdrop]
      rw [List.append_assoc]
      congr 1
      rw [List.nil_append, ← List.replicate_add]
      congr 1
      simp only [List.length_nil, Nat.sub_zero]
      omega

theorem flatten_chunksOf_simple (k : Nat) (D : List Nat) (hk : 1 ≤ k) :
    (chunksOf k D).flatten =
      D ++ List.replicate (chunkSize k D.length * k - D.length) 0 := by
  have hb := (ceil_div_bounds D.length k hk).1
  exact flatten_chunkAt _ k D hb

theorem filterMap_if_all {α β : Type} (p : α → Bool) (f : α → β) :
    ∀ (l : List α), (∀ a ∈ l, p a = true) →
      (l.filterMap (fun a => if p a then some (f a) else none)) = l.map f
  | [], _ => rfl
  | a :: t, hall => by
    rw [List.filterMap_cons, List.map_cons, if_pos (hall a (by simp)),
      filterMap_if_all p f t (fun x hx => hall x (by simp [hx]))]

theorem zip_map_self {α β : Type} (g : α → β) :
    ∀ l : List α, (l.map g).zip l = l.map (fun i => (g i, i))
  | [] => rfl
  | a :: t => by simp [zip_map_self g t]

theorem sortByIdx_sorted_id :
    ∀ (l : List (Nat × List Nat)),
      l.Pairwise (fun p q => p.1 < q.1) → sortByIdx l = l
  | [], _ => rfl
  | p :: t, hpw => by
    rw [sortByIdx, sortByIdx_sorted_id t hpw.of_cons]
    cases t with
    | nil => rfl
    | cons q t' =>
      have hpq : p.1 < q.1 := (List.pairwise_cons.mp hpw).1 q (by simp)
      rw [insertByIdx, if_pos (Nat.le_of_lt hpq)]

theorem decode_data_fragments (k : Nat) (D : List Nat) (hk : 1 ≤ k) :
    decode k (chunksOf k D) (List.range k) = rstripZeros D := by
  rw [decode]
  have hzip : (chunksOf k D).zip (List.range k) =
      (List.range k).map
        (fun i => (chunkAt D (chunkSize k D.length) i, i)) := by
    rw [chunksOf, zip_map_self]
  rw [hzip, List.filterMap_map]
  have hfm : ((List.range k).filterMap
      ((fun p : List Nat × Nat =>
        if p.2 < k then some (p.2, p.1) else none) ∘
        (fun i => (chunkAt D (chunkSize k D.length) i, i)))) =
      (List.range k).map
        (fun i => (i, chunkAt D (chunkSize k D.length) i)) := by
    have := filterMap_if_all (fun i : Nat => decide (i < k))
      (fun i => (i, chunkAt D (chunkSize k D.length) i)) (List.range k)
      (fun a ha => by simpa using List.mem_range.mp ha)
    rw [← this]
    refine List.filterMap_congr (fun i hi => ?_)
    simp [List.mem_range.mp hi]
  rw [hfm]
  rw [sortByIdx_sorted_id _ (by
    refine List.Pairwise.map _ ?_ (List.pairwise_lt_range k)
    intro a b hab
    simpa using hab)]
  rw [List.map_map]
  have hsnd : ((List.range k).map
      ((Prod.snd) ∘ (fun i => (i, chunkAt D (chunkSize k D.length) i)))) =
      (List.range k).map (chunkAt D (chunkSize k D.length)) := by
    refine List.map_congr_left (fun i _ => ?_)
    simp
  rw [hsnd]
  rw [show (List.range k).map (chunkAt D (chunkSize k D.length)) =
    chunksOf k D from rfl]
  rw [flatten_chunksOf_simple k D hk]
  exact rstripZeros_append_zeros D _

end ECSimple

/-! ### Demo decoder lemmas and encoder arithmetic -/

theorem ECFile.decode_ignores_hash (frags : List (List Nat))
    (idxs : List Nat) (meta : ECFile.Metadata) (v₁ v₂ : Nat) :
    ECFile.decode frags idxs { meta with dataHash := v₁ } =
      ECFile.decode frags idxs { meta with dataHash := v₂ } := by
  simp only [ECFile.decode]

theorem ECDemo.decode_wrong_count
    (d : List (List Nat) → List Nat → List (List Nat))
    (h : List Nat → Nat) (k n : Nat) (shards : List (Option (List Nat)))
    (meta : ECDemo.Metadata) (hne : shards.length ≠ n) :
    ECDemo.decode d h k n shards meta =
      .error (.wrongShardCount n shards.length) := by
  simp only [ECDemo.decode]
  rw [if_pos hne]

theorem ECDemo.decode_insufficient
    (d : List (List Nat) → List Nat → List (List Nat))
    (h : List Nat → Nat) (k n : Nat) (shards : List (Option (List Nat)))
    (meta : ECDemo.Metadata) (hn : shards.length = n)
    (hlt : (ECDemo.validPairs 0 shards).length < k) :
    ECDemo.decode d h k n shards meta =
      .error (.needAtLeast k (ECDemo.validPairs 0 shards).length) := by
  simp only [ECDemo.decode]
  rw [if_neg (by simp [hn]), if_pos hlt]

theorem ECDemo.decode_ok_hash
    (d : List (List Nat) → List Nat → List (List Nat))
    (h : List Nat → Nat) (k n : Nat) (shards : List (Option (List Nat)))
    (meta : ECDemo.Metadata) (r : List Nat)
    (hres : ECDemo.decode d h k n shards meta = .ok r) :
    h r = meta.hash := by
  simp only [ECDemo.decode] at hres
  by_cases h1 : shards.length ≠ n
  · rw [if_pos h1] at hres
    exact absurd hres (by simp)
  · rw [if_neg h1] at hres
    by_cases h2 : (ECDemo.validPairs 0 shards).length < k
    · rw [if_pos h2] at hres
      exact absurd hres (by simp)
    · rw [if_neg h2] at hres
      rw [ECDemo.finishDecode] at hres
      by_cases h3 : h (if 0 < meta.padding
          then (d (List.map Prod.snd (if k < (ECDemo.validPairs 0 shards).length
                then (ECDemo.validPairs 0 shards).take k
                else ECDemo.validPairs 0 shards))
              (List.map Prod.fst (if k < (ECDemo.validPairs 0 shards).length
                then (ECDemo.validPairs 0 shards).take k
                else ECDemo.validPairs 0 shards))).flatten.take
            ((d (List.map Prod.snd (if k < (ECDemo.validPairs 0 shards).length
                then (ECDemo.validPairs 0 shards).take k
                else ECDemo.validPairs 0 shards))
              (List.map Prod.fst (if k < (ECDemo.validPairs 0 shards).length
                then (ECDemo.validPairs 0 shards).take k
                else ECDemo.validPairs 0 shards))).flatten.length - meta.padding)
          else (d (List.map Prod.snd (if k < (ECDemo.validPairs 0 shards).length
                then (ECDemo.validPairs 0 shards).take k
                else ECDemo.validPairs 0 shards))
              (List.map Prod.fst (if k < (ECDemo.validPairs 0 shards).length
                then (ECDemo.validPairs 0 shards).take k
                else ECDemo.validPairs 0 shards))).flatten) ≠ meta.hash
      · rw [if_pos h3] at hres
        exact absurd hres (by simp)
      · rw [if_neg h3] at hres
        rw [Except.ok.injEq] at hres
        subst hres
        exact of_not_not h3

theorem ECDemo.decode_select_lowest
    (d : List (List Nat) → List Nat → List (List Nat))
    (h : List Nat → Nat) (k n : Nat) (shards : List (Option (List Nat)))
    (meta : ECDemo.Metadata) (hn : shards.length = n)
    (hgt : k < (ECDemo.validPairs 0 shards).length) :
    ECDemo.decode d h k n shards meta =
      ECDemo.decode d h k n (maskFirstValid k shards) meta := by
  have hvm := validPairs_maskFirstValid k shards 0
  have hml := length_maskFirstValid k shards
  have hL : ECDemo.decode d h k n shards meta =
      ECDemo.finishDecode h meta
        ((d (((ECDemo.validPairs 0 shards).take k).map Prod.snd)
          (((ECDemo.validPairs 0 shards).take k).map Prod.fst)).flatten) := by
    simp only [ECDemo.decode]
    rw [if_neg (by simp [hn]), if_neg (by omega), if_pos hgt]
  have hlen' : ((ECDemo.validPairs 0 shards).take k).length = k := by
    rw [List.length_take]
    omega
  have hR : ECDemo.decode d h k n (maskFirstValid k shards) meta =
      ECDemo.finishDecode h meta
        ((d (((ECDemo.validPairs 0 shards).take k).map Prod.snd)
          (((ECDemo.validPairs 0 shards).take k).map Prod.fst)).flatten) := by
    simp only [ECDemo.decode]
    rw [hml, hvm, hlen', if_neg (by simp [hn]), if_neg (lt_irrefl k),
      if_neg (lt_irrefl k)]
  rw [hL, hR]

theorem pad_mod_eq (L k : Nat) (hk : 1 ≤ k) :
    L + (k - L % k) % k = chunkSize k L * k ∧ (k - L % k) % k < k := by
  have hq := Nat.div_add_mod L k
  have hr : L % k < k := Nat.mod_lt _ (by omega)
  rcases Nat.eq_zero_or_pos (L % k) with hz | hpos
  · have hpad : (k - L % k) % k = 0 := by
      rw [hz, Nat.sub_zero, Nat.mod_self]
    have hcs : chunkSize k L = L / k := by
      rw [chunkSize]
      have hnum : L + k - 1 = k * (L / k) + (k - 1) := by omega
      rw [hnum, Nat.mul_add_div (by omega),
        Nat.div_eq_of_lt (show k - 1 < k by omega)]
      omega
    rw [hpad, hcs]
    refine ⟨?_, by omega⟩
    have hLk : L = k * (L / k) := by omega
    rw [Nat.add_zero]
    rw [Nat.mul_comm (L / k) k]
    exact hLk
  · have hpad : (k - L % k) % k = k - L % k := Nat.mod_eq_of_lt (by omega)
    have hm1 : k * (L / k + 1) = k * (L / k) + k := by ring
    have hcs : chunkSize k L = L / k + 1 := by
      rw [chunkSize]
      have hnum : L + k - 1 = k * (L / k + 1) + (L % k - 1) := by omega
      rw [hnum, Nat.mul_add_div (by omega),
        Nat.div_eq_of_lt (show L % k - 1 < k by omega)]
    rw [hpad, hcs]
    have hmc : (L / k + 1) * k = k * (L / k + 1) := Nat.mul_comm _ _
    exact ⟨by omega, by omega⟩

theorem ECDemo.encode_metadata (e : List (List Nat) → List (List Nat))
    (h : List Nat → Nat) (k : Nat) (D : List Nat) (hk : 1 ≤ k) :
    (ECDemo.encode e h k D).2.block_size = chunkSize k D.length ∧
    (ECDemo.encode e h k D).2.block_size * k =
      (ECDemo.encode e h k D).2.original_length +
        (ECDemo.encode e h k D).2.padding ∧
    (ECDemo.encode e h k D).2.padding < k := by
  obtain ⟨hsum, hlt⟩ := pad_mod_eq D.length k hk
  have hpad : (ECDemo.encode e h k D).2.padding =
      (k - D.length % k) % k := rfl
  have hol : (ECDemo.encode e h k D).2.original_length = D.length := rfl
  have hlen : (ECDemo.encode e h k D).2.block_size =
      (D.length + (k - D.length % k) % k) / k := by
    simp [ECDemo.encode]
  have hbs : (ECDemo.encode e h k D).2.block_size = chunkSize k D.length := by
    rw [hlen, hsum, Nat.mul_div_cancel _ (by omega)]
  refine ⟨hbs, ?_, by rw [hpad]; exact hlt⟩
  rw [hbs, hpad, hol]
  exact hsum.symm

/-! ### Round-trip glue lemmas -/

theorem getD_map_const (P : List Nat) (m i : Nat) (him : i < m) :
    ((List.range m).map (fun _ => P)).getD i [] = P := by
  rw [List.getD_eq_getElem _ _ (by simpa using him)]
  simp

namespace ECFile

theorem encode_take_k (h : List Nat → Nat) (k m : Nat) (D : List Nat) :
    (encode h k m D).1.take k = chunksOf k D := by
  rw [encode]
  exact List.take_left' (length_chunksOf k D)

theorem dictGet_range_chunks (k : Nat) (D : List Nat) (i : Nat) (hik : i < k) :
    dictGet ((List.range k).zip (chunksOf k D)) i =
      (chunksOf k D).getD i [] := by
  have hd := dictGet_eq
    (fun j => ((paddedData k D).drop (j * chunkSize k D.length)).take
      (chunkSize k D.length))
    (List.range k) i (List.mem_range.mpr hik)
  rw [getD_chunksOf k D i hik]
  exact hd

theorem roundtrip_first_k (h : List Nat → Nat) (k m : Nat) (D : List Nat)
    (hk : 1 ≤ k) :
    decode ((encode h k m D).1.take k) (List.range k) (encode h k m D).2 =
      .ok D := by
  rw [encode_take_k]
  refine decode_all_data _ _ h k m D hk ?_ ?_ ?_
  · rw [length_chunksOf]
  · intro i hik
    rw [dataIdxOf, List.mem_filter]
    exact ⟨List.mem_range.mpr hik, by simpa using hik⟩
  · intro i hik
    exact dictGet_range_chunks k D i hik

end ECFile

/-! ## Claim theorems

Each claim of the specification is settled against the embedded code. -/

/-- C1 (counterexample): for the XOR coder of `erasure_coding_file.py` with
`k = 2`, `n = 4`, `D = [1, 2]`, the size-`k` subset `S = {2, 3}` (the two
parity shards) is a valid subset of shard indices, yet decoding from exactly
those shards errors out instead of reproducing `D` — the any-k property
fails on the code. -/
theorem claim_C1_counterexample :
    ([2, 3] : List Nat).Nodup ∧ ([2, 3] : List Nat).length = 2 ∧
    (∀ i ∈ ([2, 3] : List Nat), i < 2 + 2) ∧
    ECFile.decode
      (([2, 3] : List Nat).map
        (fun i => (ECFile.encode (fun _ => 0) 2 2 [1, 2]).1.getD i []))
      [2, 3] (ECFile.encode (fun _ => 0) 2 2 [1, 2]).2 =
      .error (.cannotReconstruct 2) ∧
    ECFile.decode
      (([2, 3] : List Nat).map
        (fun i => (ECFile.encode (fun _ => 0) 2 2 [1, 2]).1.getD i []))
      [2, 3] (ECFile.encode (fun _ => 0) 2 2 [1, 2]).2 ≠
      .ok [1, 2] := by
  refine ⟨by decide, by decide, by decide, by decide, by decide⟩

/-- C1 (amended): for the XOR coder of `erasure_coding_file.py`, decoding
from the shards at a distinct size-`k` index subset `S ⊆ [0, k+m)` (with the
metadata produced by encoding) reproduces `D` exactly when `S` contains at
least `k - 1` of the data indices `0..k-1`; as soon as two or more data
shards are missing the decode fails. -/
theorem claim_C1_amended (h : List Nat → Nat) (k m : Nat) (D : List Nat)
    (S : List Nat) (hk : 1 ≤ k) (hnd : S.Nodup) (hlen : S.length = k)
    (hrange : ∀ i ∈ S, i < k + m) :
    ECFile.decode
        (S.map (fun i => (ECFile.encode h k m D).1.getD i [])) S
        (ECFile.encode h k m D).2 = .ok D ↔
      k - 1 ≤ (ECFile.dataIdxOf k S).length := by
  have hndd : (ECFile.dataIdxOf k S).Nodup := hnd.filter _
  have hdlen_le : (ECFile.dataIdxOf k S).length ≤ k := by
    have := List.length_filter_le (fun i => decide (i < k)) S
    rw [hlen] at this
    exact this
  constructor
  · intro hok
    by_contra hlt
    push_neg at hlt
    have hm : 2 ≤ (ECFile.missingOf k S).length := by
      rw [ECFile.missingOf_length k S hndd]
      omega
    have herr := ECFile.decode_err_two_missing
      (S.map (fun i => (ECFile.encode h k m D).1.getD i [])) S
      (ECFile.encode h k m D).2 (by simp [ECFile.encode, hlen]) hm
    rw [herr] at hok
    exact absurd hok (by simp)
  · intro hge
    have hcases : (ECFile.dataIdxOf k S).length = k ∨
        (ECFile.dataIdxOf k S).length = k - 1 := by omega
    rcases hcases with hik | hik
    · -- every data index is present
      have hsub : (ECFile.dataIdxOf k S).toFinset ⊆ Finset.range k := by
        intro a ha
        rw [List.mem_toFinset, ECFile.dataIdxOf, List.mem_filter] at ha
        rw [Finset.mem_range]
        simpa using ha.2
      have hcard : (ECFile.dataIdxOf k S).toFinset.card = k := by
        rw [List.toFinset_card_of_nodup hndd, hik]
      have hset : (ECFile.dataIdxOf k S).toFinset = Finset.range k :=
        Finset.eq_of_subset_of_card_le hsub (by rw [Finset.card_range, hcard])
      have hcover : ∀ i, i < k → i ∈ ECFile.dataIdxOf k S := by
        intro i hikk
        rw [← List.mem_toFinset, hset, Finset.mem_range]
        exact hikk
      refine ECFile.decode_all_data _ _ h k m D hk (by simp [hlen]) hcover ?_
      intro i hikk
      have hiS : i ∈ S := by
        have := hcover i hikk
        rw [ECFile.dataIdxOf, List.mem_filter] at this
        exact this.1
      rw [dictGet_eq (fun i => (ECFile.encode h k m D).1.getD i []) S i hiS]
      exact ECFile.encode_frag_data h k m D i hikk
    · exact ECFile.decode_one_missing h k m D S hk hnd hlen hrange hik

/-- C1 (witness): with `k = 2`, `n = 4`, `D = [1, 2]` and the subset
`S = {0, 3}` (one data shard and one parity shard), the XOR decoder of
`erasure_coding_file.py` reproduces `D`. -/
theorem claim_C1_witness :
    ECFile.decode
      (([0, 3] : List Nat).map
        (fun i => (ECFile.encode (fun _ => 0) 2 2 [1, 2]).1.getD i []))
      [0, 3] (ECFile.encode (fun _ => 0) 2 2 [1, 2]).2 = .ok [1, 2] :=
  (claim_C1_amended (fun _ => 0) 2 2 [1, 2] [0, 3] (by decide) (by decide)
    (by decide) (by decide)).mpr (by decide)

/-- C2 (counterexample): for `erasure_coding_simple.py` with `k = 2`,
`m = 1` and `D = [1, 0]`, decoding the first `k` shards labeled `0..k-1`
returns `[1]`, not `D` — the trailing zero byte of the data is stripped
along with the padding because this decoder keeps no metadata. -/
theorem claim_C2_counterexample :
    ECSimple.decode 2 ((ECSimple.encode 2 1 [1, 0]).take 2) [0, 1] = [1] ∧
    ECSimple.decode 2 ((ECSimple.encode 2 1 [1, 0]).take 2) [0, 1] ≠
      [1, 0] := by
  refine ⟨by decide, by decide⟩

/-- C2 (amended): decoding the first `k` shards labeled `0..k-1` returns
exactly `D` for the metadata-carrying decoder of `erasure_coding_file.py`;
the metadata-less decoder of `erasure_coding_simple.py` instead returns `D`
with its trailing zero bytes stripped (so the round-trip is exact only for
data not ending in a zero byte). -/
theorem claim_C2_amended (h : List Nat → Nat) (k m : Nat) (D : List Nat)
    (hk : 1 ≤ k) :
    ECFile.decode ((ECFile.encode h k m D).1.take k) (List.range k)
        (ECFile.encode h k m D).2 = .ok D ∧
    ECSimple.decode k ((ECSimple.encode k m D).take k) (List.range k) =
      rstripZeros D := by
  constructor
  · exact ECFile.roundtrip_first_k h k m D hk
  · have htake : (ECSimple.encode k m D).take k = ECSimple.chunksOf k D := by
      rw [ECSimple.encode]
      exact List.take_left' (by simp [ECSimple.chunksOf])
    rw [htake]
    exact ECSimple.decode_data_fragments k D hk

/-- C2 (witness): round-trip with no shard loss at `k = 2`, `m = 1`,
`D = [3, 4]`. -/
theorem claim_C2_witness :
    ECFile.decode ((ECFile.encode (fun _ => 0) 2 1 [3, 4]).1.take 2)
        (List.range 2) (ECFile.encode (fun _ => 0) 2 1 [3, 4]).2 =
      .ok [3, 4] ∧
    ECSimple.decode 2 ((ECSimple.encode 2 1 [3, 4]).take 2) (List.range 2) =
      rstripZeros [3, 4] :=
  claim_C2_amended (fun _ => 0) 2 1 [3, 4] (by decide)

/-- Test whether a decode outcome is the insufficient-fragments error of
`erasure_coding_file.py` (`Need at least {k} fragments, got ...`). -/
def isInsufficientErr : Except ECFile.DecodeError (List Nat) → Bool
  | .error (.insufficientFragments _ _) => true
  | _ => false

/-- C3 (counterexample): presenting the same shard twice (`k = 2`, `m = 1`,
indices `[0, 0]`, only one distinct shard) makes the decoder of
`erasure_coding_file.py` fail with the `Missing data chunk but no parity
available` error, not with the insufficient-shards error: the insufficiency
check counts presented fragments, not distinct indices. -/
theorem claim_C3_counterexample :
    (([0, 0] : List Nat).toFinset.card <
      (ECFile.encode (fun _ => 0) 2 1 [1, 2]).2.k) ∧
    ECFile.decode
      [(ECFile.encode (fun _ => 0) 2 1 [1, 2]).1.getD 0 [],
       (ECFile.encode (fun _ => 0) 2 1 [1, 2]).1.getD 0 []]
      [0, 0] (ECFile.encode (fun _ => 0) 2 1 [1, 2]).2 =
      .error .noParity ∧
    isInsufficientErr (ECFile.decode
      [(ECFile.encode (fun _ => 0) 2 1 [1, 2]).1.getD 0 [],
       (ECFile.encode (fun _ => 0) 2 1 [1, 2]).1.getD 0 []]
      [0, 0] (ECFile.encode (fun _ => 0) 2 1 [1, 2]).2) = false := by
  refine ⟨by decide, by decide, by decide⟩

/-- C3 (amended): with fewer than `k` distinct presented indices the file
decoder always fails (it never returns data), though not always with the
insufficient-shards error; the demo decoder, whose shard positions are
distinct by construction, fails with its insufficient-shards error whenever
fewer than `k` shards are valid. -/
theorem claim_C3_amended :
    (∀ (frags : List (List Nat)) (idxs : List Nat) (meta : ECFile.Metadata),
      idxs.toFinset.card < meta.k →
      exceptIsOk (ECFile.decode frags idxs meta) = false) ∧
    (∀ (d : List (List Nat) → List Nat → List (List Nat))
      (h : List Nat → Nat) (k n : Nat) (shards : List (Option (List Nat)))
      (meta : ECDemo.Metadata), shards.length = n →
      (ECDemo.validPairs 0 shards).length < k →
      ECDemo.decode d h k n shards meta =
        .error (.needAtLeast k (ECDemo.validPairs 0 shards).length)) :=
  ⟨ECFile.decode_not_ok_of_few_distinct, ECDemo.decode_insufficient⟩

/-- C3 (witness): the duplicate-index call above indeed never returns data,
and a demo decode with `k = 3` and only `2` valid shards fails with the
insufficient-shards error. -/
theorem claim_C3_witness :
    exceptIsOk (ECFile.decode
      [(ECFile.encode (fun _ => 0) 2 1 [1, 2]).1.getD 0 [],
       (ECFile.encode (fun _ => 0) 2 1 [1, 2]).1.getD 0 []]
      [0, 0] (ECFile.encode (fun _ => 0) 2 1 [1, 2]).2) = false ∧
    ECDemo.decode (fun vs _ => vs) (fun _ => 0) 3 4
      [some [1], none, some [2], none] (ECDemo.Metadata.mk 2 0 1 0) =
      .error (.needAtLeast 3
        (ECDemo.validPairs 0 [some [1], none, some [2], none]).length) :=
  ⟨claim_C3_amended.1 _ [0, 0] _ (by decide),
   claim_C3_amended.2 _ _ 3 4 _ _ (by decide) (by decide)⟩

/-- C4 (counterexample): the decoder of `erasure_coding_file.py` never
recomputes or compares the content digest: two calls that differ only in
the stored `data_hash` (`5` versus `99`, which cannot both be the digest of
the returned bytes) both return the reconstructed bytes successfully. -/
theorem claim_C4_counterexample :
    ECFile.decode [[7]] [0] (ECFile.Metadata.mk 1 1 1 0 1 5) = .ok [7] ∧
    ECFile.decode [[7]] [0] (ECFile.Metadata.mk 1 1 1 0 1 99) = .ok [7] := by
  refine ⟨by decide, by decide⟩

/-- C4 (amended): the demo decoder verifies the digest — whenever it
returns bytes, their digest (under the external hash it was given) equals
the metadata's stored hash, and a mismatch yields the SHA-mismatch error —
but the file decoder ignores the metadata hash field entirely: its result
does not depend on `data_hash`. -/
theorem claim_C4_amended :
    (∀ (d : List (List Nat) → List Nat → List (List Nat))
      (h : List Nat → Nat) (k n : Nat) (shards : List (Option (List Nat)))
      (meta : ECDemo.Metadata) (r : List Nat),
      ECDemo.decode d h k n shards meta = .ok r → h r = meta.hash) ∧
    (∀ (frags : List (List Nat)) (idxs : List Nat)
      (meta : ECFile.Metadata) (v₁ v₂ : Nat),
      ECFile.decode frags idxs { meta with dataHash := v₁ } =
        ECFile.decode frags idxs { meta with dataHash := v₂ }) :=
  ⟨ECDemo.decode_ok_hash, ECFile.decode_ignores_hash⟩

/-- C4 (witness): a successful demo decode whose returned bytes hash (under
the supplied digest function) to the stored metadata hash. -/
theorem claim_C4_witness :
    (fun _ : List Nat => 7) [5] = (ECDemo.Metadata.mk 1 0 1 7).hash :=
  claim_C4_amended.1 (fun vs _ => vs) (fun _ => 7) 1 1 [some [5]]
    (ECDemo.Metadata.mk 1 0 1 7) [5] (by decide)

/-- C5: invalid parameters (`k ≤ 0`, `n < k`, or `n > 255`) are rejected
with the invalid-parameters error before any computation, producing no
shards and no metadata.  The check itself is modelled from the spec (§7):
the repository source performs no validation of its own and delegates it to
the external `zfec` constructors. -/
theorem claim_C5 (e : List (List Nat) → List (List Nat))
    (h : List Nat → Nat) (k n : Int) (data : List Nat)
    (hinv : ECDemo.paramsInvalid k n) :
    ECDemo.encodeChecked e h k n data = .error .invalidParameters := by
  rw [ECDemo.encodeChecked, if_pos hinv]

/-- C5 (witness): `k = 0` is rejected. -/
theorem claim_C5_witness :
    ECDemo.encodeChecked (fun bs => bs) (fun _ => 0) 0 1 [1] =
      .error .invalidParameters :=
  claim_C5 (fun bs => bs) (fun _ => 0) 0 1 [1] (by decide)

/-- C6 (counterexample): with `k = 4`, `m = 1` and a 1-byte input, the
metadata of `erasure_coding_file.py` has `chunk_size = 1` and implied
padding `chunk_size * k - original_length = 3`, so `0 ≤ padding <
block_size` fails (`3 < 1` is false) — the correct bound is `padding < k`. -/
theorem claim_C6_counterexample :
    (ECFile.encode (fun _ => 0) 4 1 [9]).2.chunk_size = 1 ∧
    (ECFile.encode (fun _ => 0) 4 1 [9]).2.original_length = 1 ∧
    (ECFile.encode (fun _ => 0) 4 1 [9]).2.chunk_size * 4 =
      (ECFile.encode (fun _ => 0) 4 1 [9]).2.original_length + 3 ∧
    ¬ (3 < (ECFile.encode (fun _ => 0) 4 1 [9]).2.chunk_size) := by
  refine ⟨by decide, by decide, by decide, by decide⟩

/-- C6 (amended): for both encoders the metadata satisfies
`block_size = ceil(len(data)/k)` (the source's `(L + k - 1) / k`) and
`block_size * k = original_length + padding`, with `0 ≤ padding < k`
(not `padding < block_size` as the claim stated). -/
theorem claim_C6_amended (h : List Nat → Nat)
    (e : List (List Nat) → List (List Nat)) (hb : List Nat → Nat)
    (k m : Nat) (D : List Nat) (hk : 1 ≤ k) :
    ((ECFile.encode h k m D).2.chunk_size = chunkSize k D.length ∧
     (ECFile.encode h k m D).2.chunk_size * k =
       (ECFile.encode h k m D).2.original_length +
         ((ECFile.encode h k m D).2.chunk_size * k -
           (ECFile.encode h k m D).2.original_length) ∧
     (ECFile.encode h k m D).2.chunk_size * k -
       (ECFile.encode h k m D).2.original_length < k) ∧
    ((ECDemo.encode e hb k D).2.block_size = chunkSize k D.length ∧
     (ECDemo.encode e hb k D).2.block_size * k =
       (ECDemo.encode e hb k D).2.original_length +
         (ECDemo.encode e hb k D).2.padding ∧
     (ECDemo.encode e hb k D).2.padding < k) := by
  refine ⟨⟨rfl, ?_, ?_⟩, ECDemo.encode_metadata e hb k D hk⟩
  · have hcs : (ECFile.encode h k m D).2.chunk_size = chunkSize k D.length :=
      rfl
    have hol : (ECFile.encode h k m D).2.original_length = D.length := rfl
    have hb1 := (ceil_div_bounds D.length k hk).1
    rw [hcs, hol]
    rw [chunkSize] at *
    omega
  · have hb2 := ceil_div_bounds D.length k hk
    have hcs : (ECFile.encode h k m D).2.chunk_size = chunkSize k D.length :=
      rfl
    have hol : (ECFile.encode h k m D).2.original_length = D.length := rfl
    rw [hcs, hol]
    rw [chunkSize] at *
    omega

/-- C6 (witness): the amended bounds at `k = 4`, `m = 1`, `D = [9]`. -/
theorem claim_C6_witness :
    ((ECFile.encode (fun _ => 0) 4 1 [9]).2.chunk_size =
       chunkSize 4 ([9] : List Nat).length ∧
     (ECFile.encode (fun _ => 0) 4 1 [9]).2.chunk_size * 4 =
       (ECFile.encode (fun _ => 0) 4 1 [9]).2.original_length +
         ((ECFile.encode (fun _ => 0) 4 1 [9]).2.chunk_size * 4 -
           (ECFile.encode (fun _ => 0) 4 1 [9]).2.original_length) ∧
     (ECFile.encode (fun _ => 0) 4 1 [9]).2.chunk_size * 4 -
       (ECFile.encode (fun _ => 0) 4 1 [9]).2.original_length < 4) ∧
    ((ECDemo.encode (fun bs => bs) (fun _ => 0) 4 [9]).2.block_size =
       chunkSize 4 ([9] : List Nat).length ∧
     (ECDemo.encode (fun bs => bs) (fun _ => 0) 4 [9]).2.block_size * 4 =
       (ECDemo.encode (fun bs => bs) (fun _ => 0) 4 [9]).2.original_length +
         (ECDemo.encode (fun bs => bs) (fun _ => 0) 4 [9]).2.padding ∧
     (ECDemo.encode (fun bs => bs) (fun _ => 0) 4 [9]).2.padding < 4) :=
  claim_C6_amended (fun _ => 0) (fun bs => bs) (fun _ => 0) 4 1 [9]
    (by decide)

/-- C7: when more than `k` shards are presented, the demo decoder uses the
`k` available shards with the lowest indices — its result equals decoding
from only those `k` (all other positions blanked out), the selected pairs
are exactly the first `k` valid ones, the available indices are strictly
ascending, and every selected index is below every unselected one. -/
theorem claim_C7 (d : List (List Nat) → List Nat → List (List Nat))
    (h : List Nat → Nat) (k n : Nat) (shards : List (Option (List Nat)))
    (meta : ECDemo.Metadata) (hn : shards.length = n)
    (hgt : k < (ECDemo.validPairs 0 shards).length) :
    ECDemo.decode d h k n shards meta =
      ECDemo.decode d h k n (maskFirstValid k shards) meta ∧
    ECDemo.validPairs 0 (maskFirstValid k shards) =
      (ECDemo.validPairs 0 shards).take k ∧
    ((ECDemo.validPairs 0 shards).map Prod.fst).Pairwise (· < ·) ∧
    ∀ a ∈ ((ECDemo.validPairs 0 shards).map Prod.fst).take k,
      ∀ b ∈ ((ECDemo.validPairs 0 shards).map Prod.fst).drop k, a < b := by
  have hpw : ((ECDemo.validPairs 0 shards).map Prod.fst).Pairwise (· < ·) :=
    List.Pairwise.map Prod.fst (fun a b hab => hab)
      (validPairs_ascending shards 0)
  refine ⟨ECDemo.decode_select_lowest d h k n shards meta hn hgt,
    validPairs_maskFirstValid k shards 0, hpw, ?_⟩
  have hsplit :=
    List.take_append_drop k ((ECDemo.validPairs 0 shards).map Prod.fst)
  rw [← hsplit] at hpw
  exact (List.pairwise_append.mp hpw).2.2

/-- C7 (witness): with `k = 1`, `n = 3` and two valid shards at positions
`0` and `2`, decoding equals decoding from just the lowest-index shard. -/
theorem claim_C7_witness :
    ECDemo.decode (fun vs _ => vs) (fun _ => 0) 1 3
        [some [5], none, some [6]] (ECDemo.Metadata.mk 1 0 1 0) =
      ECDemo.decode (fun vs _ => vs) (fun _ => 0) 1 3
        (maskFirstValid 1 [some [5], none, some [6]])
        (ECDemo.Metadata.mk 1 0 1 0) :=
  (claim_C7 (fun vs _ => vs) (fun _ => 0) 1 3 [some [5], none, some [6]]
    (ECDemo.Metadata.mk 1 0 1 0) (by decide) (by decide)).1

theorem dictGet_append_single (ps : List (Nat × List Nat)) (a : Nat)
    (v : List Nat) (i : Nat) :
    dictGet (ps ++ [(a, v)]) i = if a = i then v else dictGet ps i := by
  rw [dictGet, List.foldl_append]
  rfl

/-- C8 (counterexample): the decoder of `erasure_coding_file.py` does not
reject repeated or out-of-range indices: presenting the data shards plus a
duplicate of shard `1` (indices `[0, 1, 1]`), or plus a garbage shard at
the out-of-range index `7` (with `n = 3`), both succeed and return the
data instead of being rejected as caller errors. -/
theorem claim_C8_counterexample :
    (¬ ([0, 1, 1] : List Nat).Nodup) ∧
    ECFile.decode
      [(ECFile.encode (fun _ => 0) 2 1 [1, 2]).1.getD 0 [],
       (ECFile.encode (fun _ => 0) 2 1 [1, 2]).1.getD 1 [],
       (ECFile.encode (fun _ => 0) 2 1 [1, 2]).1.getD 1 []]
      [0, 1, 1] (ECFile.encode (fun _ => 0) 2 1 [1, 2]).2 = .ok [1, 2] ∧
    ((ECFile.encode (fun _ => 0) 2 1 [1, 2]).2.num_fragments ≤ 7) ∧
    ECFile.decode
      [(ECFile.encode (fun _ => 0) 2 1 [1, 2]).1.getD 0 [],
       (ECFile.encode (fun _ => 0) 2 1 [1, 2]).1.getD 1 [], [9]]
      [0, 1, 7] (ECFile.encode (fun _ => 0) 2 1 [1, 2]).2 = .ok [1, 2] := by
  refine ⟨by decide, by decide, by decide, by decide⟩

/-- C8 (amended): the decoders perform no duplicate or range validation at
all — a presented set containing a repeated index (with the matching
fragment) or an index outside `[0, n)` alongside all `k` data shards is
processed without any rejection and decoding succeeds. -/
theorem claim_C8_amended (h : List Nat → Nat) (k m : Nat) (D : List Nat)
    (j : Nat) (g : List Nat) (hk : 1 ≤ k) (hj : k ≤ j) :
    ECFile.decode ((ECFile.encode h k m D).1.take k ++ [g])
        (List.range k ++ [j]) (ECFile.encode h k m D).2 = .ok D ∧
    ∀ i, i < k →
      ECFile.decode ((ECFile.encode h k m D).1.take k ++
          [(ECFile.encode h k m D).1.getD i []])
        (List.range k ++ [i]) (ECFile.encode h k m D).2 = .ok D := by
  have hziplen : (List.range k).length = (ECFile.chunksOf k D).length := by
    rw [List.length_range, ECFile.length_chunksOf]
  constructor
  · rw [ECFile.encode_take_k]
    refine ECFile.decode_all_data _ _ h k m D hk ?_ ?_ ?_
    · rw [List.length_append, ECFile.length_chunksOf]
      omega
    · intro i hik
      rw [ECFile.dataIdxOf, List.mem_filter]
      exact ⟨List.mem_append_left _ (List.mem_range.mpr hik),
        by simpa using hik⟩
    · intro i hik
      rw [List.zip_append hziplen]
      have hz1 : ([j] : List Nat).zip [g] = [(j, g)] := rfl
      rw [hz1, dictGet_append_single, if_neg (by omega)]
      exact ECFile.dictGet_range_chunks k D i hik
  · intro i₀ hi₀
    rw [ECFile.encode_take_k, ECFile.encode_frag_data h k m D i₀ hi₀]
    refine ECFile.decode_all_data _ _ h k m D hk ?_ ?_ ?_
    · rw [List.length_append, ECFile.length_chunksOf]
      omega
    · intro i hik
      rw [ECFile.dataIdxOf, List.mem_filter]
      exact ⟨List.mem_append_left _ (List.mem_range.mpr hik),
        by simpa using hik⟩
    · intro i hik
      rw [List.zip_append hziplen]
      have hz1 : ([i₀] : List Nat).zip [(ECFile.chunksOf k D).getD i₀ []] =
          [(i₀, (ECFile.chunksOf k D).getD i₀ [])] := rfl
      rw [hz1, dictGet_append_single]
      by_cases hcase : i₀ = i
      · rw [if_pos hcase, hcase]
      · rw [if_neg hcase]
        exact ECFile.dictGet_range_chunks k D i hik

/-- C8 (witness): decoding succeeds with the out-of-range index `7`
presented alongside both data shards (`k = 2`, `m = 1`). -/
theorem claim_C8_witness :
    ECFile.decode ((ECFile.encode (fun _ => 0) 2 1 [1, 2]).1.take 2 ++ [[9]])
      (List.range 2 ++ [7]) (ECFile.encode (fun _ => 0) 2 1 [1, 2]).2 =
      .ok [1, 2] :=
  (claim_C8_amended (fun _ => 0) 2 1 [1, 2] 7 [9] (by decide) (by decide)).1

/-- C9: in both XOR coders every parity fragment (output slot `k + i` for
`i < m`) equals the bytewise XOR of all `k` padded data fragments (the fold
of `xorBytes` over the first `k` output fragments starting from a
zero-filled buffer of `chunk_size` bytes), and consequently all `m` parity
fragments are byte-for-byte identical. -/
theorem claim_C9 (h : List Nat → Nat) (k m : Nat) (D : List Nat)
    (i j : Nat) (_hk : 1 ≤ k) (hi : i < m) (hj : j < m) :
    ((ECFile.encode h k m D).1.getD (k + i) [] =
       ((ECFile.encode h k m D).1.take k).foldl xorBytes
         (List.replicate (ECFile.encode h k m D).2.chunk_size 0) ∧
     (ECFile.encode h k m D).1.getD (k + i) [] =
       (ECFile.encode h k m D).1.getD (k + j) []) ∧
    ((ECSimple.encode k m D).getD (k + i) [] =
       ((ECSimple.encode k m D).take k).foldl xorBytes
         (List.replicate (chunkSize k D.length) 0) ∧
     (ECSimple.encode k m D).getD (k + i) [] =
       (ECSimple.encode k m D).getD (k + j) []) := by
  have hfi : ∀ t, t < m →
      (ECFile.encode h k m D).1.getD (k + t) [] = ECFile.parityOf k D :=
    fun t ht => ECFile.encode_frag_parity h k m D (k + t) (by omega) (by omega)
  have hslen : (ECSimple.chunksOf k D).length = k := by
    simp [ECSimple.chunksOf]
  have hsi : ∀ t, t < m →
      (ECSimple.encode k m D).getD (k + t) [] = ECSimple.parityOf k D := by
    intro t ht
    rw [ECSimple.encode,
      List.getD_append_right _ _ _ _ (by rw [hslen]; omega), hslen]
    have harith : k + t - k = t := by omega
    rw [harith]
    exact getD_map_const _ m t ht
  refine ⟨⟨?_, by rw [hfi i hi, hfi j hj]⟩, ⟨?_, by rw [hsi i hi, hsi j hj]⟩⟩
  · rw [hfi i hi, ECFile.encode_take_k]
    rfl
  · rw [hsi i hi, ECSimple.encode, List.take_left' hslen]
    rfl

/-- C9 (witness): both parity fragments coincide with the XOR of the data
fragments at `k = 2`, `m = 2`, `D = [1, 2]`. -/
theorem claim_C9_witness :
    ((ECFile.encode (fun _ => 0) 2 2 [1, 2]).1.getD (2 + 0) [] =
       ((ECFile.encode (fun _ => 0) 2 2 [1, 2]).1.take 2).foldl xorBytes
         (List.replicate (ECFile.encode (fun _ => 0) 2 2 [1, 2]).2.chunk_size 0) ∧
     (ECFile.encode (fun _ => 0) 2 2 [1, 2]).1.getD (2 + 0) [] =
       (ECFile.encode (fun _ => 0) 2 2 [1, 2]).1.getD (2 + 1) []) ∧
    ((ECSimple.encode 2 2 [1, 2]).getD (2 + 0) [] =
       ((ECSimple.encode 2 2 [1, 2]).take 2).foldl xorBytes
         (List.replicate (chunkSize 2 ([1, 2] : List Nat).length) 0) ∧
     (ECSimple.encode 2 2 [1, 2]).getD (2 + 0) [] =
       (ECSimple.encode 2 2 [1, 2]).getD (2 + 1) []) :=
  claim_C9 (fun _ => 0) 2 2 [1, 2] 0 1 (by decide) (by decide) (by decide)

/-- C10: the demo decoder requires the presented shard list to have exactly
`n` entries (`None` marking missing shards); any other length is rejected
with the wrong-shard-count error regardless of how many valid shards the
list contains. -/
theorem claim_C10 (d : List (List Nat) → List Nat → List (List Nat))
    (h : List Nat → Nat) (k n : Nat) (shards : List (Option (List Nat)))
    (meta : ECDemo.Metadata) (hne : shards.length ≠ n) :
    ECDemo.decode d h k n shards meta =
      .error (.wrongShardCount n shards.length) :=
  ECDemo.decode_wrong_count d h k n shards meta hne

/-- C10 (witness): a list of three valid shards is rejected when `n = 2`,
even though it contains at least `k = 1` valid shards. -/
theorem claim_C10_witness :
    ECDemo.decode (fun vs _ => vs) (fun _ => 0) 1 2
        [some [1], some [2], some [3]] (ECDemo.Metadata.mk 3 0 1 0) =
      .error (.wrongShardCount 2 3) ∧
    1 ≤ (ECDemo.validPairs 0 [some [1], some [2], some [3]]).length :=
  ⟨claim_C10 (fun vs _ => vs) (fun _ => 0) 1 2
      [some [1], some [2], some [3]] (ECDemo.Metadata.mk 3 0 1 0)
      (by decide),
   by decide⟩
